import Mathlib

/-!
Verification of the expression-evaluation and Euler-integration core of
`euler-plotter.py`.

Numbers: the source computes with Python floats (IEEE binary64).  The
embedding uses exact rational arithmetic `ℚ` for the core definitions;
where a claim's truth depends on binary64 rounding (the step-count claim
for `dt = 0.1`), a separate scaled-integer model of binary64 addition
with round-to-nearest-even is used (`addFP56` below) and the divergence
between the two semantics is proved explicitly.
-/

/-- Run-time values of the sandboxed Python expression language, as they can
occur while evaluating a user expression against the restricted environment
of `make_safe_eval_env`: numbers, string literals, and the whitelisted
builtin functions (represented by their whitelist name).  The transcendental
whitelist functions (`sin`, `exp`, ...) are real-valued, so their pointwise
behaviour — like the values of the constants `pi` and `e` — is kept as a
parameter of the semantics (`Interp` below); no claim depends on it. -/
inductive Val where
  | num (q : ℚ)
  | str (s : String)
  | fn (name : String)
deriving DecidableEq

/-- Interpretation parameters of the sandboxed semantics: the (real-valued,
hence parametrised) constants `pi` and `e`, the behaviour `app` of the
whitelisted builtin functions on argument lists, and the behaviour `powF`
of the `**` operator (whose result on non-integer exponents is likewise
irrational in general).  All sandbox/adapter theorems hold for every
interpretation. -/
structure Interp where
  piV : ℚ
  eV : ℚ
  app : String → List Val → Except String Val
  powF : ℚ → ℚ → Except String ℚ

/-- Binary arithmetic operators of the expression grammar. -/
inductive BinOp where
  | add | sub | mul | div | pow
deriving DecidableEq

/-- Short-circuiting boolean operators `or` / `and`. -/
inductive BoolOp where
  | orOp | andOp
deriving DecidableEq

mutual

/-- Abstract syntax of the Python expressions accepted by the source's
`compile(expr, ..., "eval")`: numeric and string literals, identifiers,
attribute access, unary minus, arithmetic, short-circuit boolean operators,
conditional expressions, and calls. -/
inductive Expr where
  | num (q : ℚ)
  | str (s : String)
  | name (x : String)
  | attr (base : Expr) (field : String)
  | neg (a : Expr)
  | bin (op : BinOp) (a b : Expr)
  | boolop (op : BoolOp) (a b : Expr)
  | cond (c a b : Expr)
  | call (callee : Expr) (args : ExprList)

/-- Argument lists of a call. -/
inductive ExprList where
  | nil
  | cons (head : Expr) (tail : ExprList)

end

/-- Python truthiness of a value, as used by `or`/`and`/conditional
expressions: a number is truthy iff nonzero, a string iff nonempty, a
builtin function always. -/
def truthy : Val → Bool
  | .num q => q ≠ 0
  | .str s => s ≠ ""
  | .fn _ => true

/-- Name resolution inside the source's `eval(code, globals, locals)`: the
locals mapping (the caller-supplied bindings) is consulted first, then the
globals mapping (the whitelist).  The source passes
`{"__builtins__": None, **allowed}` as globals, so there is no builtins
fallback: a name absent from both mappings is an evaluation error (CPython
raises a `TypeError` from the `None` builtins; the source catches every
exception alike). -/
def lookupName (locals globals : List (String × Val)) (x : String) : Except String Val :=
  match locals.lookup x with
  | some v => .ok v
  | none =>
    match globals.lookup x with
    | some v => .ok v
    | none => .error ("name " ++ x ++ " is not defined")

/-- Semantics of a binary arithmetic operator on values.  Python raises
`TypeError` on non-numeric operands of arithmetic (string concatenation is
not modelled: no claim mentions it), `ZeroDivisionError` on division by
zero; `**` is delegated to the interpretation. -/
def binEval (I : Interp) : BinOp → Val → Val → Except String Val
  | .add, .num a, .num b => .ok (.num (a + b))
  | .sub, .num a, .num b => .ok (.num (a - b))
  | .mul, .num a, .num b => .ok (.num (a * b))
  | .div, .num a, .num b => if b = 0 then .error "ZeroDivisionError" else .ok (.num (a / b))
  | .pow, .num a, .num b => (I.powF a b).map .num
  | _, _, _ => .error "TypeError"

mutual

/-- Evaluation of a sandboxed expression against the locals/globals
mappings, mirroring CPython's `eval` on the restricted environment:
identifiers resolve through `lookupName` only (no ambient namespace),
`or`/`and` short-circuit on truthiness, a conditional evaluates its
condition first, a call evaluates the callee, then the arguments, then
applies the (whitelisted builtin) function via the interpretation.
Attribute access evaluates its base expression; the CPython object
attribute protocol itself is outside the model, so a successfully
evaluated base yields an `AttributeError` here (only the evaluation order
of the base is relied on by any theorem below). -/
def evalExpr (I : Interp) (globals locals : List (String × Val)) : Expr → Except String Val
  | .num q => .ok (.num q)
  | .str s => .ok (.str s)
  | .name x => lookupName locals globals x
  | .attr base _ =>
    match evalExpr I globals locals base with
    | .error e => .error e
    | .ok _ => .error "AttributeError"
  | .neg a =>
    match evalExpr I globals locals a with
    | .error e => .error e
    | .ok (.num q) => .ok (.num (-q))
    | .ok _ => .error "TypeError"
  | .bin op a b =>
    match evalExpr I globals locals a with
    | .error e => .error e
    | .ok va =>
      match evalExpr I globals locals b with
      | .error e => .error e
      | .ok vb => binEval I op va vb
  | .boolop .orOp a b =>
    match evalExpr I globals locals a with
    | .error e => .error e
    | .ok va => if truthy va then .ok va else evalExpr I globals locals b
  | .boolop .andOp a b =>
    match evalExpr I globals locals a with
    | .error e => .error e
    | .ok va => if truthy va then evalExpr I globals locals b else .ok va
  | .cond c a b =>
    match evalExpr I globals locals c with
    | .error e => .error e
    | .ok vc => if truthy vc then evalExpr I globals locals a else evalExpr I globals locals b
  | .call callee args =>
    match evalExpr I globals locals callee with
    | .error e => .error e
    | .ok vc =>
      match evalArgs I globals locals args with
      | .error e => .error e
      | .ok vs =>
        match vc with
        | .fn nm => I.app nm vs
        | _ => .error "TypeError: object is not callable"

/-- Left-to-right evaluation of a call's argument list; the first failing
argument aborts the call. -/
def evalArgs (I : Interp) (globals locals : List (String × Val)) : ExprList → Except String (List Val)
  | .nil => .ok []
  | .cons a rest =>
    match evalExpr I globals locals a with
    | .error e => .error e
    | .ok v =>
      match evalArgs I globals locals rest with
      | .error e => .error e
      | .ok vs => .ok (v :: vs)

end

mutual

/-- All identifiers syntactically referenced by an expression. -/
def exprIdents : Expr → List String
  | .num _ => []
  | .str _ => []
  | .name x => [x]
  | .attr base _ => exprIdents base
  | .neg a => exprIdents a
  | .bin _ a b => exprIdents a ++ exprIdents b
  | .boolop _ a b => exprIdents a ++ exprIdents b
  | .cond c a b => exprIdents c ++ exprIdents a ++ exprIdents b
  | .call callee args => exprIdents callee ++ exprListIdents args

/-- All identifiers syntactically referenced by an argument list. -/
def exprListIdents : ExprList → List String
  | .nil => []
  | .cons a rest => exprIdents a ++ exprListIdents rest

end

/-- The restricted environment dictionary of `make_safe_eval_env`: exactly
the whitelisted names of the source, in source order; `pi` and `e` map to
the (parametrised) constants, every other entry to the corresponding
builtin function. -/
def make_safe_eval_env (I : Interp) : List (String × Val) :=
  [("pi", .num I.piV), ("e", .num I.eV),
   ("sin", .fn "sin"), ("cos", .fn "cos"), ("tan", .fn "tan"),
   ("asin", .fn "asin"), ("acos", .fn "acos"), ("atan", .fn "atan"),
   ("sqrt", .fn "sqrt"), ("exp", .fn "exp"), ("log", .fn "log"),
   ("log10", .fn "log10"), ("sinh", .fn "sinh"), ("cosh", .fn "cosh"),
   ("tanh", .fn "tanh"), ("floor", .fn "floor"), ("ceil", .fn "ceil"),
   ("fabs", .fn "fabs"), ("pow", .fn "pow"), ("abs", .fn "abs"),
   ("min", .fn "min"), ("max", .fn "max")]

/-- The derivative adapter `build_f_function`: evaluate the compiled
expression with globals `{"__builtins__": None, **allowed}` and locals
`{"y": y, "t": t}`. -/
def build_f_function (I : Interp) (f_code : Expr) : ℚ → ℚ → Except String Val :=
  let allowed := make_safe_eval_env I
  fun y t => evalExpr I allowed [("y", .num y), ("t", .num t)] f_code

/-- The exact-solution adapter `build_g_function`: evaluate the compiled
expression with the same globals and locals `{"t": t}`. -/
def build_g_function (I : Interp) (g_code : Expr) : ℚ → Except String Val :=
  let allowed := make_safe_eval_env I
  fun t => evalExpr I allowed [("t", .num t)] g_code

/-- Test interpretation used by closed witnesses and counterexamples:
constants zero, every function application failing.  Nothing below depends
on this choice. -/
def interp0 : Interp where
  piV := 0
  eV := 0
  app := fun _ _ => .error "opaque"
  powF := fun _ _ => .error "opaque"

/-- The expression `1 or z` (a sandboxed expression that syntactically
references the unbound identifier `z` in a short-circuited position). -/
def oneOrZ : Expr := .boolop .orOp (.num 1) (.name "z")

/-- The expression `os.system('x')` from the specification. -/
def osSystemX : Expr := .call (.attr (.name "os") "system") (.cons (.str "x") .nil)

/-- One run of the `while t < t_end` loop of `euler_method`, carrying the
current `(t, y)` state and returning the list of points it appends,
beginning with the current state (the source appends the initial point
before entering the loop).  A failing evaluation of `f` breaks out of the
loop, keeping the points accumulated so far.  The `fuel` argument makes the
loop total: `none` means the fuel was exhausted before the loop finished
(for `dt ≤ 0` and a never-failing `f` the source's loop never terminates,
and correspondingly no finite fuel suffices). -/
def eulerAux (f : ℚ → ℚ → Except String ℚ) (t_end dt : ℚ) :
    ℕ → ℚ → ℚ → Option (List (ℚ × ℚ))
  | 0, _, _ => none
  | fuel + 1, t, y =>
    if t < t_end then
      match f y t with
      | .error _ => some [(t, y)]
      | .ok slope =>
        (eulerAux f t_end dt fuel (t + dt) (y + dt * slope)).map (fun rest => (t, y) :: rest)
    else
      some [(t, y)]

/-- Fuel sufficient for `eulerAux` whenever `dt > 0`: one unit per loop
iteration (`⌈(t_end - t0)/dt⌉` of them when positive) plus one for the
final test. -/
def eulerFuel (t0 t_end dt : ℚ) : ℕ := (⌈(t_end - t0) / dt⌉).toNat + 1

/-- The integrator `euler_method(f, t0, y0, t_end, delta_t)`: start from
`(t0, y0)` and run the stepping loop.  The source returns the parallel
lists `t_values, y_values`; they are modelled as a single list of `(t, y)`
pairs. -/
def euler_method (f : ℚ → ℚ → Except String ℚ) (t0 y0 t_end dt : ℚ) :
    Option (List (ℚ × ℚ)) :=
  eulerAux f t_end dt (eulerFuel t0 t_end dt) t0 y0

/-- The sequence of `(t, y)` states the Euler loop steps through: state 0
is `(t0, y0)` and state `i+1` is obtained from state `i` by one Euler
update.  On the (never used below) branch where `f` fails at state `i`,
the `y`-component is left unchanged; every theorem that mentions a state
`i+1` assumes `f` succeeded at state `i`. -/
def eulerStateSeq (f : ℚ → ℚ → Except String ℚ) (t0 y0 dt : ℚ) : ℕ → ℚ × ℚ
  | 0 => (t0, y0)
  | i + 1 =>
    match f (eulerStateSeq f t0 y0 dt i).2 (eulerStateSeq f t0 y0 dt i).1 with
    | .ok s => ((eulerStateSeq f t0 y0 dt i).1 + dt, (eulerStateSeq f t0 y0 dt i).2 + dt * s)
    | .error _ => ((eulerStateSeq f t0 y0 dt i).1 + dt, (eulerStateSeq f t0 y0 dt i).2)

/-- One run of the `while i < num_points` loop of `smooth_exact_curve`,
with `rem` iterations left and current index `i`: evaluate `g` on each
grid point `t0 + i*step`; a failure is re-raised, so the whole sampling
fails as a unit. -/
def sampleLoop (g : ℚ → Except String ℚ) (t0 step : ℚ) :
    ℕ → ℕ → Except String (List (ℚ × ℚ))
  | 0, _ => .ok []
  | rem + 1, i =>
    match g (t0 + i * step) with
    | .error e => .error e
    | .ok y =>
      match sampleLoop g t0 step rem (i + 1) with
      | .error e => .error e
      | .ok rest => .ok ((t0 + i * step, y) :: rest)

/-- The sampler `smooth_exact_curve(g, t0, t_end, num_points)`: clamp
`num_points` to a minimum of 2, use the even spacing
`step = (t_end - t0)/(num_points - 1)`, and evaluate `g` on the whole
grid.  As in `euler_method`, the source's parallel lists `T, Y` are
modelled as one list of pairs. -/
def smooth_exact_curve (g : ℚ → Except String ℚ) (t0 t_end : ℚ) (num_points : ℤ) :
    Except String (List (ℚ × ℚ)) :=
  let n := if num_points < 2 then 2 else num_points
  let step := (t_end - t0) / ((n : ℚ) - 1)
  sampleLoop g t0 step n.toNat 0

/-- One run of the `while i < len(t_values)` loop of `compute_max_error`,
carrying the running maximum `max_err` and the count `compared`; a failing
evaluation of `g` is raised, discarding the partial maximum. -/
def maxErrLoop (g : ℚ → Except String ℚ) :
    List (ℚ × ℚ) → ℚ → ℕ → Except String (ℚ × ℕ)
  | [], max_err, compared => .ok (max_err, compared)
  | (t, y_e) :: rest, max_err, compared =>
    match g t with
    | .error e => .error e
    | .ok y_true =>
      let err := |y_e - y_true|
      maxErrLoop g rest (if err > max_err then err else max_err) (compared + 1)

/-- The error analyzer `compute_max_error(g, t_values, y_values)`: maximum
absolute deviation over the trajectory's own grid points, starting from
`max_err = 0.0`, together with the number of compared points. -/
def compute_max_error (g : ℚ → Except String ℚ) (pts : List (ℚ × ℚ)) :
    Except String (ℚ × ℕ) :=
  maxErrLoop g pts 0 0

/-- Number of binary digits of `n` (0 for 0), with explicit fuel so that
the definition reduces inside the kernel.  64 units of fuel are enough for
every number below `2 ^ 64`. -/
def bitlen : ℕ → ℕ → ℕ
  | 0, _ => 0
  | fuel + 1, n => if n = 0 then 0 else bitlen fuel (n / 2) + 1

/-- Round `s` to the nearest multiple of `grid` (ties to the even
multiple), as IEEE-754 round-to-nearest-even does on the significand. -/
def rneGrid (s grid : ℕ) : ℕ :=
  let q := s / grid
  let r := s % grid
  if 2 * r < grid then q * grid
  else if grid < 2 * r then (q + 1) * grid
  else if q % 2 = 0 then q * grid else (q + 1) * grid

/-- IEEE-754 binary64 addition of two nonnegative doubles, represented as
integer multiples of `2 ^ (-56)` (scaled by `2 ^ 56`): the exact sum is
rounded to 53 significant bits, ties to even.  This is exact binary64
semantics for the magnitudes arising below (all values are in `[0, 8)`,
normal range, so the unit of the last place is at least `2 ^ (-56)` and
no overflow or subnormal case arises). -/
def addFP56 (a b : ℕ) : ℕ :=
  let s := a + b
  let bl := bitlen 128 s
  if bl ≤ 53 then s else rneGrid s (2 ^ (bl - 53))

/-- The `t`-values appended by the source's Euler loop under binary64
arithmetic (scaled by `2 ^ 56`): `t` starts at `t0` and each iteration of
`while t < t_end` appends `t + delta_t` computed as a double addition.
The trajectory's length and `t`-column do not depend on `f` when `f`
never fails, so `f` and the `y`-updates are omitted here. -/
def eulerTLoopFP (t_end56 dt56 : ℕ) : ℕ → ℕ → List ℕ
  | 0, t => [t]
  | fuel + 1, t =>
    if t < t_end56 then t :: eulerTLoopFP t_end56 dt56 fuel (addFP56 t dt56) else [t]

/-- Scaled representation of the double `0.1` entered as `delta_t`:
`0.1` parses to the binary64 value `3602879701896397 * 2 ^ (-55)`, i.e.
`7205759403792794 * 2 ^ (-56)`. -/
def dtFP56 : ℕ := 7205759403792794

/-- The `t`-values of the source's Euler loop for `t0 = 0`, `t_end = 5`,
`delta_t = 0.1` under binary64 arithmetic (scaled by `2 ^ 56`);
`5 = 360287970189639680 * 2 ^ (-56)` is exactly representable.  100 units
of fuel are more than the loop's 51 iterations. -/
def eulerTValuesFP : List ℕ := eulerTLoopFP (5 * 2 ^ 56) dtFP56 100 0

/-- Derivative used by closed witnesses: `f(y, t)` succeeds with slope 0
for `t < 0.2` and fails afterwards, so with `t0 = 0`, `delta_t = 0.1` its
third invocation (at `t = 0.2`) is the first failing one. -/
def fBoom : ℚ → ℚ → Except String ℚ :=
  fun _ t => if t < 2/10 then .ok 0 else .error "boom"

mutual

/-- Evaluation consults nothing beyond the locals/globals mappings: two
environments that resolve every identifier referenced by the expression
alike give identical evaluation results. -/
theorem evalExpr_agree (I : Interp) (g1 l1 g2 l2 : List (String × Val)) (e : Expr)
    (h : ∀ x ∈ exprIdents e, lookupName l1 g1 x = lookupName l2 g2 x) :
    evalExpr I g1 l1 e = evalExpr I g2 l2 e := by
  cases e with
  | num q => simp only [evalExpr]
  | str s => simp only [evalExpr]
  | name x => simpa only [evalExpr] using h x (by simp [exprIdents])
  | attr base fld =>
    have hb := evalExpr_agree I g1 l1 g2 l2 base (fun x hx => h x (by simpa [exprIdents] using hx))
    simp only [evalExpr, hb]
  | neg a =>
    have ha := evalExpr_agree I g1 l1 g2 l2 a (fun x hx => h x (by simpa [exprIdents] using hx))
    simp only [evalExpr, ha]
  | bin op a b =>
    have ha := evalExpr_agree I g1 l1 g2 l2 a
      (fun x hx => h x (by simp only [exprIdents, List.mem_append]; exact Or.inl hx))
    have hb := evalExpr_agree I g1 l1 g2 l2 b
      (fun x hx => h x (by simp only [exprIdents, List.mem_append]; exact Or.inr hx))
    simp only [evalExpr, ha, hb]
  | boolop op a b =>
    have ha := evalExpr_agree I g1 l1 g2 l2 a
      (fun x hx => h x (by simp only [exprIdents, List.mem_append]; exact Or.inl hx))
    have hb := evalExpr_agree I g1 l1 g2 l2 b
      (fun x hx => h x (by simp only [exprIdents, List.mem_append]; exact Or.inr hx))
    cases op with
    | orOp => simp only [evalExpr, ha, hb]
    | andOp => simp only [evalExpr, ha, hb]
  | cond c a b =>
    have hc := evalExpr_agree I g1 l1 g2 l2 c
      (fun x hx => h x (by simp only [exprIdents, List.mem_append]; exact Or.inl (Or.inl hx)))
    have ha := evalExpr_agree I g1 l1 g2 l2 a
      (fun x hx => h x (by simp only [exprIdents, List.mem_append]; exact Or.inl (Or.inr hx)))
    have hb := evalExpr_agree I g1 l1 g2 l2 b
      (fun x hx => h x (by simp only [exprIdents, List.mem_append]; exact Or.inr hx))
    simp only [evalExpr, hc, ha, hb]
  | call callee args =>
    have hc := evalExpr_agree I g1 l1 g2 l2 callee
      (fun x hx => h x (by simp only [exprIdents, List.mem_append]; exact Or.inl hx))
    have hargs := evalArgs_agree I g1 l1 g2 l2 args
      (fun x hx => h x (by simp only [exprIdents, List.mem_append]; exact Or.inr hx))
    simp only [evalExpr, hc, hargs]

/-- Argument-list analogue of `evalExpr_agree`. -/
theorem evalArgs_agree (I : Interp) (g1 l1 g2 l2 : List (String × Val)) (es : ExprList)
    (h : ∀ x ∈ exprListIdents es, lookupName l1 g1 x = lookupName l2 g2 x) :
    evalArgs I g1 l1 es = evalArgs I g2 l2 es := by
  cases es with
  | nil => simp only [evalArgs]
  | cons a rest =>
    have ha := evalExpr_agree I g1 l1 g2 l2 a
      (fun x hx => h x (by simp only [exprListIdents, List.mem_append]; exact Or.inl hx))
    have hr := evalArgs_agree I g1 l1 g2 l2 rest
      (fun x hx => h x (by simp only [exprListIdents, List.mem_append]; exact Or.inr hx))
    simp only [evalArgs, ha, hr]

end

/-- C1 counterexample: the sandboxed expression `1 or z` syntactically
references the identifier `z`, which is bound neither in the whitelist
environment nor in the (empty) caller bindings, yet `eval` neither raises
nor rejects it: Python's `or` short-circuits on the truthy left operand, so
evaluation succeeds and returns 1.  (Checked against CPython:
`eval("1 or z", {"__builtins__": None, **allowed}, {})` returns `1`.)
This refutes the claim that every expression referencing an identifier
outside the whitelist-plus-bindings union fails with ParseError or
EvalError. -/
theorem sandbox_shortcircuit_counterexample :
    evalExpr interp0 (make_safe_eval_env interp0) [] oneOrZ = .ok (.num 1)
    ∧ "z" ∈ exprIdents oneOrZ
    ∧ (make_safe_eval_env interp0).lookup "z" = none
    ∧ ([] : List (String × Val)).lookup "z" = none := by
  refine ⟨?_, ?_, ?_, rfl⟩
  · simp [evalExpr, oneOrZ, truthy]
  · simp [oneOrZ, exprIdents]
  · simp [make_safe_eval_env]

/-- C1 (amended): name resolution during sandboxed evaluation consults only
the whitelist environment and the caller-supplied bindings, with no
fallback to any ambient namespace — evaluation results agree across any
two environments resolving the expression's identifiers alike — and an
identifier absent from both fails with an evaluation error when its lookup
is actually reached; in particular the plain expression `z` and the
specification's example `os.system('x')` (whose evaluation reaches the
lookup of `os` first) fail with an evaluation error.  However (per the
counterexample) an expression can syntactically reference an out-of-scope
identifier inside a short-circuited position and still evaluate
successfully, so the universally quantified failure claim holds only for
lookups actually performed. -/
theorem sandbox_env_only_resolution :
    (∀ (I : Interp) (e : Expr) (g1 l1 g2 l2 : List (String × Val)),
        (∀ x ∈ exprIdents e, lookupName l1 g1 x = lookupName l2 g2 x) →
        evalExpr I g1 l1 e = evalExpr I g2 l2 e)
    ∧ (∀ (I : Interp) (globals locals : List (String × Val)) (x : String),
        locals.lookup x = none → globals.lookup x = none →
        evalExpr I globals locals (.name x) = .error ("name " ++ x ++ " is not defined"))
    ∧ (∀ (I : Interp) (y t : ℚ),
        build_f_function I osSystemX y t = .error "name os is not defined") := by
  refine ⟨fun I e g1 l1 g2 l2 h => evalExpr_agree I g1 l1 g2 l2 e h, ?_, ?_⟩
  · intro I globals locals x hl hg
    simp [evalExpr, lookupName, hl, hg]
  · intro I y t
    simp [build_f_function, osSystemX, evalExpr, evalArgs, lookupName, make_safe_eval_env,
      List.lookup]

/-- Closed instantiation of `sandbox_env_only_resolution`: agreement of two
concrete environments on the expression `1 or z`, and the concrete failures
of `z` and of `os.system('x')`. -/
theorem sandbox_env_only_resolution_witness :
    evalExpr interp0 (make_safe_eval_env interp0) [("y", .num 0)] oneOrZ
      = evalExpr interp0 (make_safe_eval_env interp0) [("y", .num 1)] oneOrZ
    ∧ evalExpr interp0 [] [] (.name "z") = .error ("name " ++ "z" ++ " is not defined")
    ∧ build_f_function interp0 osSystemX 0 0 = .error "name os is not defined" :=
  ⟨sandbox_env_only_resolution.1 interp0 oneOrZ (make_safe_eval_env interp0) [("y", .num 0)]
      (make_safe_eval_env interp0) [("y", .num 1)]
      (by intro x hx; simp [oneOrZ, exprIdents] at hx; subst hx; rfl),
   sandbox_env_only_resolution.2.1 interp0 [] [] "z" rfl rfl,
   sandbox_env_only_resolution.2.2 interp0 0 0⟩

/-- Arithmetic of the loop measure: one Euler step decreases
`⌈(t_end - t)/dt⌉` by exactly one. -/
theorem ceil_steps_shift (t t_end dt : ℚ) (hdt : dt ≠ 0) :
    ⌈(t_end - (t + dt)) / dt⌉ = ⌈(t_end - t) / dt⌉ - 1 := by
  have h : (t_end - (t + dt)) / dt = (t_end - t) / dt - 1 := by
    field_simp
    ring
  rw [h, Int.ceil_sub_one]

/-- While the loop is running (`t < t_end`, `dt > 0`), the remaining step
count is positive. -/
theorem ceil_steps_pos (t t_end dt : ℚ) (hdt : 0 < dt) (hlt : t < t_end) :
    0 < ⌈(t_end - t) / dt⌉ :=
  Int.ceil_pos.mpr (div_pos (by linarith) hdt)

/-- A returned trajectory starts at the state the loop was entered with. -/
theorem eulerAux_shape (f : ℚ → ℚ → Except String ℚ) (t_end dt : ℚ)
    (fuel : ℕ) (t y : ℚ) (L : List (ℚ × ℚ))
    (h : eulerAux f t_end dt fuel t y = some L) : ∃ rest, L = (t, y) :: rest := by
  cases fuel with
  | zero => simp [eulerAux] at h
  | succ n =>
    simp only [eulerAux] at h
    by_cases hlt : t < t_end
    · rw [if_pos hlt] at h
      cases hf : f y t with
      | error e =>
        rw [hf] at h
        exact ⟨[], by simpa using h.symm⟩
      | ok s =>
        rw [hf] at h
        obtain ⟨rest, _, hL⟩ := Option.map_eq_some'.mp h
        exact ⟨rest, hL.symm⟩
    · rw [if_neg hlt] at h
      exact ⟨[], by simpa using h.symm⟩

/-- With positive `dt`, `eulerFuel` units of fuel always suffice:
`eulerAux` returns a trajectory. -/
theorem eulerAux_isSome (f : ℚ → ℚ → Except String ℚ) (t_end dt : ℚ) (hdt : 0 < dt) :
    ∀ (fuel : ℕ) (t y : ℚ), (⌈(t_end - t) / dt⌉).toNat < fuel →
      (eulerAux f t_end dt fuel t y).isSome := by
  intro fuel
  induction fuel with
  | zero => intro t y h; omega
  | succ n ih =>
    intro t y h
    simp only [eulerAux]
    by_cases hlt : t < t_end
    · rw [if_pos hlt]
      cases hf : f y t with
      | error e => simp
      | ok s =>
        have hpos := ceil_steps_pos t t_end dt hdt hlt
        have hnext : (⌈(t_end - (t + dt)) / dt⌉).toNat < n := by
          rw [ceil_steps_shift t t_end dt hdt.ne']
          omega
        have := ih (t + dt) (y + dt * s) hnext
        simpa using this
    · rw [if_neg hlt]
      simp

/-- With positive `dt`, every returned trajectory has strictly increasing
`t`-values. -/
theorem eulerAux_chain (f : ℚ → ℚ → Except String ℚ) (t_end dt : ℚ) (hdt : 0 < dt) :
    ∀ (fuel : ℕ) (t y : ℚ) (L : List (ℚ × ℚ)),
      eulerAux f t_end dt fuel t y = some L →
      List.Chain' (· < ·) (L.map Prod.fst) := by
  intro fuel
  induction fuel with
  | zero => intro t y L h; simp [eulerAux] at h
  | succ n ih =>
    intro t y L h
    simp only [eulerAux] at h
    by_cases hlt : t < t_end
    · rw [if_pos hlt] at h
      cases hf : f y t with
      | error e =>
        rw [hf] at h
        simp only [Option.some_inj] at h
        subst h
        simp
      | ok s =>
        rw [hf] at h
        obtain ⟨rest, hrest, hL⟩ := Option.map_eq_some'.mp h
        subst hL
        obtain ⟨rest2, hshape⟩ := eulerAux_shape f t_end dt n (t + dt) (y + dt * s) rest hrest
        have hchain := ih (t + dt) (y + dt * s) rest hrest
        subst hshape
        simp only [List.map_cons, List.chain'_cons] at hchain ⊢
        exact ⟨by linarith, hchain⟩
    · rw [if_neg hlt] at h
      simp only [Option.some_inj] at h
      subst h
      simp

/-- Unfolding of one Euler step of `euler_method` itself: when the loop
condition holds and `f` succeeds, the trajectory is the current point
consed onto the trajectory started from the next state. -/
theorem euler_method_step (f : ℚ → ℚ → Except String ℚ) (t0 y0 t_end dt s : ℚ)
    (hdt : 0 < dt) (hlt : t0 < t_end) (hf : f y0 t0 = .ok s) :
    euler_method f t0 y0 t_end dt
      = (euler_method f (t0 + dt) (y0 + dt * s) t_end dt).map
          (fun rest => (t0, y0) :: rest) := by
  unfold euler_method
  have hshift : eulerFuel t0 t_end dt = eulerFuel (t0 + dt) t_end dt + 1 := by
    unfold eulerFuel
    rw [ceil_steps_shift t0 t_end dt hdt.ne']
    have := ceil_steps_pos t0 t_end dt hdt hlt
    omega
  rw [hshift]
  simp only [eulerAux, if_pos hlt, hf]

/-- With positive `dt` and a never-failing `f`, the `t`-column of a
returned trajectory is the arithmetic grid `t, t + dt, t + 2*dt, ...` with
`⌈(t_end - t)/dt⌉` steps taken. -/
theorem eulerAux_grid (f : ℚ → ℚ → Except String ℚ) (t_end dt : ℚ) (hdt : 0 < dt)
    (hf : ∀ y t, ∃ s, f y t = .ok s) :
    ∀ (fuel : ℕ) (t y : ℚ) (L : List (ℚ × ℚ)),
      (⌈(t_end - t) / dt⌉).toNat < fuel →
      eulerAux f t_end dt fuel t y = some L →
      L.map Prod.fst
        = (List.range ((⌈(t_end - t) / dt⌉).toNat + 1)).map (fun i : ℕ => t + i * dt) := by
  intro fuel
  induction fuel with
  | zero => intro t y L h; omega
  | succ n ih =>
    intro t y L hfuel h
    simp only [eulerAux] at h
    by_cases hlt : t < t_end
    · obtain ⟨s, hs⟩ := hf y t
      rw [if_pos hlt, hs] at h
      obtain ⟨rest, hrest, hL⟩ := Option.map_eq_some'.mp h
      subst hL
      have hshift : (⌈(t_end - t) / dt⌉).toNat = (⌈(t_end - (t + dt)) / dt⌉).toNat + 1 := by
        rw [ceil_steps_shift t t_end dt hdt.ne']
        have := ceil_steps_pos t t_end dt hdt hlt
        omega
      have hrec := ih (t + dt) (y + dt * s) rest (by omega) hrest
      rw [hshift, List.range_succ_eq_map]
      simp only [List.map_cons, List.map_map, Nat.cast_zero, zero_mul, add_zero]
      refine congrArg (List.cons t) ?_
      rw [hrec]
      refine List.map_congr_left ?_
      intro i _
      simp only [Function.comp_apply]
      push_cast
      ring
    · rw [if_neg hlt] at h
      simp only [Option.some_inj] at h
      subst h
      have hq : (t_end - t) / dt ≤ ((0 : ℤ) : ℚ) := by
        push_cast
        rw [div_nonpos_iff]
        exact Or.inr ⟨by linarith, hdt.le⟩
      have hc : ⌈(t_end - t) / dt⌉ ≤ 0 := Int.ceil_le.mpr hq
      have hc0 : (⌈(t_end - t) / dt⌉).toNat = 0 := by omega
      rw [hc0]
      simp [List.range_succ]

/-- With positive `dt` and a never-failing `f`, `euler_method` returns a
trajectory of exactly `⌈(t_end - t0)/dt⌉ + 1` points (clamped below at 1)
whose final `t`-value is `t0 + ⌈(t_end - t0)/dt⌉ * dt`. -/
theorem euler_method_total_run (f : ℚ → ℚ → Except String ℚ) (t0 y0 t_end dt : ℚ)
    (hdt : 0 < dt) (hf : ∀ y t, ∃ s, f y t = .ok s) :
    ∃ L, euler_method f t0 y0 t_end dt = some L
      ∧ L.length = (⌈(t_end - t0) / dt⌉).toNat + 1
      ∧ (L.map Prod.fst).getLast? = some (t0 + ((⌈(t_end - t0) / dt⌉).toNat : ℚ) * dt) := by
  have hsome := eulerAux_isSome f t_end dt hdt (eulerFuel t0 t_end dt) t0 y0
    (by unfold eulerFuel; omega)
  obtain ⟨L, hL⟩ := Option.isSome_iff_exists.mp hsome
  have hgrid := eulerAux_grid f t_end dt hdt hf (eulerFuel t0 t_end dt) t0 y0 L
    (by unfold eulerFuel; omega) hL
  refine ⟨L, hL, ?_, ?_⟩
  · have := congrArg List.length hgrid
    simpa using this
  · rw [hgrid, List.range_succ, List.map_append]
    simp only [List.map_cons, List.map_nil]
    rw [List.getLast?_concat]

/-- C10: for every run of the integrator that returns, the trajectory is
non-empty and starts exactly at `(t0, y0)`; when `t0 >= t_end` (which the
integrator itself does not reject) the loop body never runs and the
trajectory is exactly `[(t0, y0)]`; when `f` fails on its very first
invocation the trajectory is likewise exactly `[(t0, y0)]`; and for
`dt > 0` the integrator always returns. -/
theorem euler_trajectory_initial_point :
    (∀ (f : ℚ → ℚ → Except String ℚ) (t0 y0 t_end dt : ℚ) (L : List (ℚ × ℚ)),
        euler_method f t0 y0 t_end dt = some L → L ≠ [] ∧ L.head? = some (t0, y0))
    ∧ (∀ (f : ℚ → ℚ → Except String ℚ) (t0 y0 t_end dt : ℚ),
        ¬ t0 < t_end → euler_method f t0 y0 t_end dt = some [(t0, y0)])
    ∧ (∀ (f : ℚ → ℚ → Except String ℚ) (t0 y0 t_end dt : ℚ) (e : String),
        f y0 t0 = .error e → euler_method f t0 y0 t_end dt = some [(t0, y0)])
    ∧ (∀ (f : ℚ → ℚ → Except String ℚ) (t0 y0 t_end dt : ℚ),
        0 < dt → (euler_method f t0 y0 t_end dt).isSome) := by
  refine ⟨?_, ?_, ?_, ?_⟩
  · intro f t0 y0 t_end dt L h
    obtain ⟨rest, hL⟩ := eulerAux_shape f t_end dt (eulerFuel t0 t_end dt) t0 y0 L h
    subst hL
    exact ⟨by simp, by simp⟩
  · intro f t0 y0 t_end dt h
    simp only [euler_method, eulerFuel, eulerAux, if_neg h]
  · intro f t0 y0 t_end dt e hf
    by_cases hlt : t0 < t_end
    · simp only [euler_method, eulerFuel, eulerAux, if_pos hlt, hf]
    · simp only [euler_method, eulerFuel, eulerAux, if_neg hlt]
  · intro f t0 y0 t_end dt hdt
    exact eulerAux_isSome f t_end dt hdt (eulerFuel t0 t_end dt) t0 y0
      (by unfold eulerFuel; omega)

/-- Closed instantiation of `euler_trajectory_initial_point`: a start at or
past `t_end` yields the single initial point, a first-invocation failure
yields the single initial point, and the returned trajectory indeed starts
with it. -/
theorem euler_trajectory_initial_point_witness :
    euler_method (fun y _ => .ok y) 3 7 2 1 = some [(3, 7)]
    ∧ euler_method fBoom 1 9 5 1 = some [(1, 9)]
    ∧ ([((3 : ℚ), (7 : ℚ))] ≠ [] ∧ [((3 : ℚ), (7 : ℚ))].head? = some (3, 7))
    ∧ (euler_method (fun y _ => .ok y) 3 7 2 1).isSome :=
  ⟨euler_trajectory_initial_point.2.1 (fun y _ => .ok y) 3 7 2 1 (by norm_num),
   euler_trajectory_initial_point.2.2.1 fBoom 1 9 5 1 "boom" (by norm_num [fBoom]),
   euler_trajectory_initial_point.1 (fun y _ => .ok y) 3 7 2 1 [(3, 7)]
     (euler_trajectory_initial_point.2.1 (fun y _ => .ok y) 3 7 2 1 (by norm_num)),
   euler_trajectory_initial_point.2.2.2 (fun y _ => .ok y) 3 7 2 1 (by norm_num)⟩

/-- C2: the integrator starts its trajectory with `(t0, y0)` and, while
`t < t_end` and `f` succeeds, appends `(t + dt, y + dt * f(y, t))` and
recurses from that state; the loop body never runs once `t >= t_end`; and
in particular for `f(y,t) = y` the run from `(0, 1)` to `t_end = 1` with
`dt = 1/2` yields exactly `[(0, 1), (1/2, 3/2), (1, 9/4)]`. -/
theorem euler_recurrence :
    (∀ (f : ℚ → ℚ → Except String ℚ) (t0 y0 t_end dt : ℚ) (L : List (ℚ × ℚ)),
        euler_method f t0 y0 t_end dt = some L → L.head? = some (t0, y0))
    ∧ (∀ (f : ℚ → ℚ → Except String ℚ) (t0 y0 t_end dt s : ℚ),
        0 < dt → t0 < t_end → f y0 t0 = .ok s →
        euler_method f t0 y0 t_end dt
          = (euler_method f (t0 + dt) (y0 + dt * s) t_end dt).map
              (fun rest => (t0, y0) :: rest))
    ∧ (∀ (f : ℚ → ℚ → Except String ℚ) (t0 y0 t_end dt : ℚ),
        ¬ t0 < t_end → euler_method f t0 y0 t_end dt = some [(t0, y0)])
    ∧ euler_method (fun y _ => .ok y) 0 1 1 (1/2) = some [(0, 1), (1/2, 3/2), (1, 9/4)] := by
  refine ⟨?_, ?_, ?_, ?_⟩
  · intro f t0 y0 t_end dt L h
    obtain ⟨rest, hL⟩ := eulerAux_shape f t_end dt (eulerFuel t0 t_end dt) t0 y0 L h
    subst hL
    simp
  · intro f t0 y0 t_end dt s hdt hlt hf
    exact euler_method_step f t0 y0 t_end dt s hdt hlt hf
  · intro f t0 y0 t_end dt h
    simp only [euler_method, eulerFuel, eulerAux, if_neg h]
  · have hfuel : eulerFuel 0 1 (1/2 : ℚ) = 3 := by
      unfold eulerFuel
      norm_num
      decide
    rw [euler_method, hfuel]
    norm_num [eulerAux]

/-- Closed instantiation of `euler_recurrence`: the initial point, one
concrete step unfolding, and a concrete no-step run. -/
theorem euler_recurrence_witness :
    ([((0 : ℚ), (1 : ℚ)), (1/2, 3/2), (1, 9/4)]).head? = some (0, 1)
    ∧ euler_method (fun y _ => .ok y) 0 1 1 (1/2)
        = (euler_method (fun y _ => .ok y) (0 + 1/2) (1 + 1/2 * 1) 1 (1/2)).map
            (fun rest => ((0 : ℚ), (1 : ℚ)) :: rest)
    ∧ euler_method (fun y _ => .ok y) 2 5 1 1 = some [(2, 5)] :=
  ⟨euler_recurrence.1 (fun y _ => .ok y) 0 1 1 (1/2) [(0, 1), (1/2, 3/2), (1, 9/4)]
      euler_recurrence.2.2.2,
   euler_recurrence.2.1 (fun y _ => .ok y) 0 1 1 (1/2) 1 (by norm_num) (by norm_num) rfl,
   euler_recurrence.2.2.1 (fun y _ => .ok y) 2 5 1 1 (by norm_num)⟩

/-- The `t`-component of the Euler state sequence is the arithmetic grid
`t0 + i * dt`, whether or not `f` ever fails. -/
theorem eulerStateSeq_fst (f : ℚ → ℚ → Except String ℚ) (t0 y0 dt : ℚ) :
    ∀ i : ℕ, (eulerStateSeq f t0 y0 dt i).1 = t0 + i * dt := by
  intro i
  induction i with
  | zero => simp [eulerStateSeq]
  | succ n ih =>
    simp only [eulerStateSeq]
    cases hf : f (eulerStateSeq f t0 y0 dt n).2 (eulerStateSeq f t0 y0 dt n).1 with
    | ok s =>
      simp only [ih]
      push_cast
      ring
    | error e =>
      simp only [ih]
      push_cast
      ring

/-- Shifting the Euler state sequence by one successful step. -/
theorem eulerStateSeq_shift (f : ℚ → ℚ → Except String ℚ) (t0 y0 dt s : ℚ)
    (hs : f y0 t0 = .ok s) :
    ∀ i : ℕ, eulerStateSeq f (t0 + dt) (y0 + dt * s) dt i = eulerStateSeq f t0 y0 dt (i + 1) := by
  intro i
  induction i with
  | zero => simp [eulerStateSeq, hs]
  | succ n ih => simp only [eulerStateSeq, ih]

/-- C4: if the Euler loop's first `k - 1` invocations of `f` succeed (all
within the integration window) and the `k`-th invocation fails, the
integrator stops immediately and returns the trajectory accumulated so
far, exactly the `k` states reached before the failure — the initial point
plus the `k - 1` successful steps — instead of raising before returning
any data.  (The failure is additionally reported on the console, which is
outside the core per the specification's scope.) -/
theorem euler_partial_failure_truncation :
    ∀ (k : ℕ) (f : ℚ → ℚ → Except String ℚ) (t0 y0 t_end dt : ℚ),
      0 < dt → 0 < k →
      (∀ i, i + 1 < k →
        ∃ s, f (eulerStateSeq f t0 y0 dt i).2 (eulerStateSeq f t0 y0 dt i).1 = .ok s) →
      (∃ e, f (eulerStateSeq f t0 y0 dt (k - 1)).2 (eulerStateSeq f t0 y0 dt (k - 1)).1
        = .error e) →
      (∀ i, i < k → t0 + i * dt < t_end) →
      euler_method f t0 y0 t_end dt = some ((List.range k).map (eulerStateSeq f t0 y0 dt))
      ∧ ((List.range k).map (eulerStateSeq f t0 y0 dt)).length = k := by
  intro k
  induction k with
  | zero => intro f t0 y0 t_end dt hdt hk; omega
  | succ k ih =>
    intro f t0 y0 t_end dt hdt hk hok herr hwin
    refine ⟨?_, by simp⟩
    cases k with
    | zero =>
      obtain ⟨e, he⟩ := herr
      simp only [eulerStateSeq] at he
      have hlt : t0 < t_end := by
        have := hwin 0 (by omega)
        simpa using this
      simp only [euler_method, eulerFuel, eulerAux, if_pos hlt, he]
      simp [eulerStateSeq, List.range_succ]
    | succ m =>
      obtain ⟨s, hs⟩ := hok 0 (by omega)
      simp only [eulerStateSeq] at hs
      have hlt : t0 < t_end := by
        have := hwin 0 (by omega)
        simpa using this
      rw [euler_method_step f t0 y0 t_end dt s hdt hlt hs]
      have hrec := (ih f (t0 + dt) (y0 + dt * s) t_end dt hdt (by omega)
        (by
          intro i hi
          rw [eulerStateSeq_shift f t0 y0 dt s hs]
          exact hok (i + 1) (by omega))
        (by
          obtain ⟨e, he⟩ := herr
          refine ⟨e, ?_⟩
          rw [eulerStateSeq_shift f t0 y0 dt s hs]
          simpa using he)
        (by
          intro i hi
          have := hwin (i + 1) (by omega)
          push_cast at this ⊢
          linarith)).1
      rw [hrec]
      simp only [Option.map_some']
      refine congrArg some ?_
      conv_rhs => rw [List.range_succ_eq_map]
      simp only [List.map_cons, List.map_map]
      refine congrArg₂ List.cons rfl ?_
      refine List.map_congr_left ?_
      intro i _
      simp only [Function.comp_apply]
      rw [eulerStateSeq_shift f t0 y0 dt s hs]

/-- Closed instantiation of `euler_partial_failure_truncation`: `fBoom`
fails on its third invocation (at `t = 0.2`), so the trajectory has
exactly 3 points — the initial point plus the 2 successful steps. -/
theorem euler_partial_failure_truncation_witness :
    euler_method fBoom 0 1 5 (1/10)
      = some ((List.range 3).map (eulerStateSeq fBoom 0 1 (1/10)))
    ∧ ((List.range 3).map (eulerStateSeq fBoom 0 1 (1/10))).length = 3 :=
  euler_partial_failure_truncation 3 fBoom 0 1 5 (1/10) (by norm_num) (by norm_num)
    (by
      intro i hi
      have hcase : i = 0 ∨ i = 1 := by omega
      rcases hcase with rfl | rfl
      · exact ⟨0, by norm_num [eulerStateSeq, fBoom]⟩
      · exact ⟨0, by norm_num [eulerStateSeq, fBoom]⟩)
    ⟨"boom", by norm_num [eulerStateSeq, fBoom]⟩
    (by
      intro i hi
      have hcase : i = 0 ∨ i = 1 ∨ i = 2 := by omega
      rcases hcase with rfl | rfl | rfl <;> norm_num)

/-- The `t`-column of a successful sampling loop is the arithmetic grid
continuing from index `i`. -/
theorem sampleLoop_fst (g : ℚ → Except String ℚ) (t0 step : ℚ) :
    ∀ (rem i : ℕ) (L : List (ℚ × ℚ)),
      sampleLoop g t0 step rem i = .ok L →
      L.map Prod.fst = (List.range rem).map (fun j : ℕ => t0 + (((i + j : ℕ)) : ℚ) * step) := by
  intro rem
  induction rem with
  | zero =>
    intro i L h
    simp only [sampleLoop] at h
    simp only [Except.ok.injEq] at h
    subst h
    simp
  | succ rem ih =>
    intro i L h
    simp only [sampleLoop] at h
    cases hg : g (t0 + i * step) with
    | error e => rw [hg] at h; exact absurd h (by simp)
    | ok y =>
      rw [hg] at h
      cases hrec : sampleLoop g t0 step rem (i + 1) with
      | error e => rw [hrec] at h; exact absurd h (by simp)
      | ok rest =>
        rw [hrec] at h
        simp only [Except.ok.injEq] at h
        subst h
        have htail := ih (i + 1) rest hrec
        simp only [List.map_cons, htail]
        conv_rhs => rw [List.range_succ_eq_map]
        simp only [List.map_cons, List.map_map]
        refine congrArg₂ List.cons (by norm_num) ?_
        refine List.map_congr_left ?_
        intro j _
        simp only [Function.comp_apply]
        have : i + 1 + j = i + (j + 1) := by omega
        rw [this]

/-- A successful sampling run evaluated `g` successfully on every grid
point it visited. -/
theorem sampleLoop_all_ok (g : ℚ → Except String ℚ) (t0 step : ℚ) :
    ∀ (rem i : ℕ) (L : List (ℚ × ℚ)),
      sampleLoop g t0 step rem i = .ok L →
      ∀ j : ℕ, j < rem → ∃ y, g (t0 + (((i + j : ℕ)) : ℚ) * step) = .ok y := by
  intro rem
  induction rem with
  | zero => intro i L h j hj; omega
  | succ rem ih =>
    intro i L h j hj
    simp only [sampleLoop] at h
    cases hg : g (t0 + i * step) with
    | error e => rw [hg] at h; exact absurd h (by simp)
    | ok y =>
      rw [hg] at h
      cases hrec : sampleLoop g t0 step rem (i + 1) with
      | error e => rw [hrec] at h; exact absurd h (by simp)
      | ok rest =>
        cases j with
        | zero => exact ⟨y, by simpa using hg⟩
        | succ j =>
          have := ih (i + 1) rest hrec j (by omega)
          obtain ⟨y2, hy2⟩ := this
          refine ⟨y2, ?_⟩
          have harg : i + 1 + j = i + (j + 1) := by omega
          rw [harg] at hy2
          exact hy2

/-- C5: for every successful sampling with `t_end > t0`, `num_points` is
clamped to a minimum of 2 and the curve's `t`-values are exactly the grid
`t_i = t0 + i * (t_end - t0)/(num_points - 1)` for `i = 0 .. num_points-1`,
so the first `t`-value is exactly `t0` and the last exactly `t_end`; in
particular sampling over `[2, 10]` with 5 points yields the `t`-values
`[2, 4, 6, 8, 10]`. -/
theorem smooth_exact_curve_grid :
    (∀ (g : ℚ → Except String ℚ) (t0 t_end : ℚ) (n : ℤ) (L : List (ℚ × ℚ)),
      t0 < t_end → smooth_exact_curve g t0 t_end n = .ok L →
      L.length = (if n < 2 then 2 else n).toNat
      ∧ L.map Prod.fst = (List.range (if n < 2 then 2 else n).toNat).map
          (fun i : ℕ => t0 + (i : ℚ) * ((t_end - t0) / ((((if n < 2 then 2 else n) : ℤ) : ℚ) - 1)))
      ∧ (L.map Prod.fst).head? = some t0
      ∧ (L.map Prod.fst).getLast? = some t_end)
    ∧ smooth_exact_curve (fun t => .ok t) 2 10 5
        = .ok [(2, 2), (4, 4), (6, 6), (8, 8), (10, 10)] := by
  constructor
  · intro g t0 t_end n L ht hok
    have hn2 : (2 : ℤ) ≤ (if n < 2 then 2 else n) := by
      split
      · omega
      · omega
    set np : ℤ := if n < 2 then 2 else n with hnp
    set step : ℚ := (t_end - t0) / ((np : ℚ) - 1) with hstep
    have hfst := sampleLoop_fst g t0 step np.toNat 0 L hok
    simp only [Nat.zero_add] at hfst
    have hm2 : 2 ≤ np.toNat := by omega
    have hcast : ((np.toNat : ℕ) : ℚ) = (np : ℚ) := by
      have : ((np.toNat : ℤ)) = np := Int.toNat_of_nonneg (by omega)
      exact_mod_cast congrArg (fun z : ℤ => (z : ℚ)) this
    refine ⟨?_, hfst, ?_, ?_⟩
    · have := congrArg List.length hfst
      simpa using this
    · rw [hfst]
      have hsplit : np.toNat = (np.toNat - 1) + 1 := by omega
      rw [hsplit, List.range_succ_eq_map]
      simp
    · rw [hfst]
      have hsplit : np.toNat = (np.toNat - 1) + 1 := by omega
      rw [hsplit, List.range_succ, List.map_append]
      simp only [List.map_cons, List.map_nil]
      rw [List.getLast?_concat]
      refine congrArg some ?_
      have hc1 : (((np.toNat - 1 : ℕ)) : ℚ) = (np : ℚ) - 1 := by
        push_cast [Nat.cast_sub (by omega : 1 ≤ np.toNat)]
        rw [hcast]
      rw [hc1, hstep]
      have hne : (np : ℚ) - 1 ≠ 0 := by
        have h2q : (2 : ℚ) ≤ (np : ℚ) := by exact_mod_cast hn2
        intro hzero
        rw [sub_eq_zero] at hzero
        rw [hzero] at h2q
        norm_num at h2q
      field_simp
  · norm_num [smooth_exact_curve, sampleLoop]

/-- Closed instantiation of the universally quantified part of
`smooth_exact_curve_grid` at the concrete 5-point sampling of `[2, 10]`. -/
theorem smooth_exact_curve_grid_witness :
    ([((2 : ℚ), (2 : ℚ)), (4, 4), (6, 6), (8, 8), (10, 10)]).length = ((5 : ℤ)).toNat
    ∧ ([((2 : ℚ), (2 : ℚ)), (4, 4), (6, 6), (8, 8), (10, 10)]).map Prod.fst
        = (List.range ((5 : ℤ)).toNat).map
            (fun i : ℕ => 2 + (i : ℚ) * ((10 - 2) / ((((5 : ℤ)) : ℚ) - 1)))
    ∧ (([((2 : ℚ), (2 : ℚ)), (4, 4), (6, 6), (8, 8), (10, 10)]).map Prod.fst).head? = some 2
    ∧ (([((2 : ℚ), (2 : ℚ)), (4, 4), (6, 6), (8, 8), (10, 10)]).map Prod.fst).getLast?
        = some 10 := by
  have h := smooth_exact_curve_grid.1 (fun t => .ok t) 2 10 5
    [(2, 2), (4, 4), (6, 6), (8, 8), (10, 10)] (by norm_num) smooth_exact_curve_grid.2
  simpa using h

/-- C6: if the exact-solution function fails on any grid point, the whole
sampling fails as a unit: no partial exact curve is ever returned (unlike
the integrator's truncation policy). -/
theorem smooth_exact_curve_all_or_nothing :
    ∀ (g : ℚ → Except String ℚ) (t0 t_end : ℚ) (n : ℤ) (j : ℕ) (e : String),
      j < (if n < 2 then 2 else n).toNat →
      g (t0 + (j : ℚ) * ((t_end - t0) / ((((if n < 2 then 2 else n) : ℤ) : ℚ) - 1))) = .error e →
      ∀ L, smooth_exact_curve g t0 t_end n ≠ .ok L := by
  intro g t0 t_end n j e hj hge L hok
  have hall := sampleLoop_all_ok g t0
    ((t_end - t0) / ((((if n < 2 then 2 else n) : ℤ) : ℚ) - 1))
    (if n < 2 then 2 else n).toNat 0 L hok j hj
  simp only [Nat.zero_add] at hall
  obtain ⟨y, hy⟩ := hall
  rw [hge] at hy
  exact absurd hy (by simp)

/-- Closed instantiation of `smooth_exact_curve_all_or_nothing`: a `g`
failing at the interior grid point `t = 6` makes the whole 5-point
sampling of `[2, 10]` fail — in particular it does not return the partial
curve over the grid points before the failure. -/
theorem smooth_exact_curve_all_or_nothing_witness :
    smooth_exact_curve (fun t => if t = 6 then .error "domain" else .ok t) 2 10 5
      ≠ .ok [(2, 2), (4, 4)] :=
  smooth_exact_curve_all_or_nothing (fun t => if t = 6 then .error "domain" else .ok t)
    2 10 5 2 "domain" (by norm_num) (by norm_num) [(2, 2), (4, 4)]

/-- Behaviour of the running-maximum fold of the error loop: the result
dominates the accumulator and every per-point error, and is attained by
the accumulator or by one of the points. -/
theorem foldl_max_spec (h : ℚ × ℚ → ℚ) :
    ∀ (pts : List (ℚ × ℚ)) (acc : ℚ),
      acc ≤ pts.foldl (fun m p => max m (h p)) acc
      ∧ (∀ p ∈ pts, h p ≤ pts.foldl (fun m p => max m (h p)) acc)
      ∧ (pts.foldl (fun m p => max m (h p)) acc = acc
          ∨ ∃ p ∈ pts, pts.foldl (fun m p => max m (h p)) acc = h p) := by
  intro pts
  induction pts with
  | nil => intro acc; exact ⟨le_refl acc, by simp, Or.inl rfl⟩
  | cons a rest ih =>
    intro acc
    simp only [List.foldl_cons]
    obtain ⟨h1, h2, h3⟩ := ih (max acc (h a))
    refine ⟨le_trans (le_max_left acc (h a)) h1, ?_, ?_⟩
    · intro p hp
      rcases List.mem_cons.mp hp with rfl | hmem
      · exact le_trans (le_max_right acc (h p)) h1
      · exact h2 p hmem
    · rcases h3 with heq | ⟨p, hp, heq⟩
      · rcases max_choice acc (h a) with hm | hm
        · exact Or.inl (by rw [heq, hm])
        · exact Or.inr ⟨a, List.mem_cons_self a rest, by rw [heq, hm]⟩
      · exact Or.inr ⟨p, List.mem_cons_of_mem a hp, heq⟩

/-- The source's update `if err > max_err then err else max_err` is the
binary maximum. -/
theorem if_gt_eq_max (m e : ℚ) : (if e > m then e else m) = max m e := by
  rcases le_or_lt e m with hle | hlt
  · rw [if_neg (not_lt.mpr hle), max_eq_left hle]
  · rw [if_pos hlt, max_eq_right hlt.le]

/-- When `g` succeeds everywhere, the error loop returns the fold of the
running maximum together with the count of points compared. -/
theorem maxErrLoop_ok (g : ℚ → Except String ℚ) (gv : ℚ → ℚ)
    (hg : ∀ t, g t = .ok (gv t)) :
    ∀ (pts : List (ℚ × ℚ)) (acc : ℚ) (cnt : ℕ),
      maxErrLoop g pts acc cnt
        = .ok (pts.foldl (fun m p => max m (|p.2 - gv p.1|)) acc, cnt + pts.length) := by
  intro pts
  induction pts with
  | nil => intro acc cnt; simp [maxErrLoop]
  | cons a rest ih =>
    intro acc cnt
    obtain ⟨t, y_e⟩ := a
    simp only [maxErrLoop, hg t]
    rw [if_gt_eq_max]
    rw [ih (max acc |y_e - gv t|) (cnt + 1)]
    simp only [List.foldl_cons, List.length_cons]
    refine congrArg Except.ok ?_
    refine congrArg₂ Prod.mk rfl ?_
    omega

/-- An error of `g` at any point of the list makes the whole error loop
fail (no partial maximum is returned). -/
theorem maxErrLoop_error (g : ℚ → Except String ℚ) :
    ∀ (pts : List (ℚ × ℚ)) (p : ℚ × ℚ) (e : String), p ∈ pts → g p.1 = .error e →
      ∀ (acc : ℚ) (cnt : ℕ) (r : ℚ × ℕ), maxErrLoop g pts acc cnt ≠ .ok r := by
  intro pts
  induction pts with
  | nil => intro p e hp; exact absurd hp (List.not_mem_nil p)
  | cons a rest ih =>
    intro p e hp hge acc cnt r
    obtain ⟨t, y_e⟩ := a
    rcases List.mem_cons.mp hp with rfl | hmem
    · simp only [maxErrLoop, hge]
      simp
    · simp only [maxErrLoop]
      cases hgt : g t with
      | error e2 => simp
      | ok y_true => exact ih p e hmem hge _ _ r

/-- C7: when `g` succeeds at every trajectory point, `compute_max_error`
returns the pair (maximum over the trajectory's own grid points of
`|y_i - g(t_i)|`, number of points compared): the returned bound dominates
every per-point error and is attained at a point (or is the initial `0.0`,
which every per-point error also reaches at most when attained elsewhere);
in particular for `g(t) = t` on `[(0,1),(1,2)]` it returns `(1, 2)`.  When
`g` fails at any trajectory point, no result is returned at all (the same
all-or-nothing policy as the sampler). -/
theorem compute_max_error_spec :
    (∀ (g : ℚ → Except String ℚ) (gv : ℚ → ℚ), (∀ t, g t = .ok (gv t)) →
      ∀ pts : List (ℚ × ℚ), ∃ M,
        compute_max_error g pts = .ok (M, pts.length)
        ∧ (∀ p ∈ pts, |p.2 - gv p.1| ≤ M)
        ∧ (M = 0 ∨ ∃ p ∈ pts, M = |p.2 - gv p.1|))
    ∧ (∀ (g : ℚ → Except String ℚ) (pts : List (ℚ × ℚ)) (p : ℚ × ℚ) (e : String),
        p ∈ pts → g p.1 = .error e →
        ∀ r : ℚ × ℕ, compute_max_error g pts ≠ .ok r)
    ∧ compute_max_error (fun t => .ok t) [(0, 1), (1, 2)] = .ok (1, 2) := by
  refine ⟨?_, ?_, ?_⟩
  · intro g gv hg pts
    refine ⟨pts.foldl (fun m p => max m (|p.2 - gv p.1|)) 0, ?_, ?_, ?_⟩
    · have := maxErrLoop_ok g gv hg pts 0 0
      simpa [compute_max_error] using this
    · exact (foldl_max_spec (fun p => |p.2 - gv p.1|) pts 0).2.1
    · exact (foldl_max_spec (fun p => |p.2 - gv p.1|) pts 0).2.2
  · intro g pts p e hp hge r
    exact maxErrLoop_error g pts p e hp hge 0 0 r
  · norm_num [compute_max_error, maxErrLoop]

/-- Closed instantiation of `compute_max_error_spec` for `g(t) = t` on the
trajectory `[(0,1),(1,2)]` and for a `g` failing at a trajectory point. -/
theorem compute_max_error_spec_witness :
    (∃ M : ℚ,
      compute_max_error (fun t => .ok t) [(0, 1), (1, 2)] = .ok (M, ([((0:ℚ),(1:ℚ)), (1, 2)]).length)
      ∧ (∀ p ∈ [((0:ℚ),(1:ℚ)), (1, 2)], |p.2 - p.1| ≤ M)
      ∧ (M = 0 ∨ ∃ p ∈ [((0:ℚ),(1:ℚ)), (1, 2)], M = |p.2 - p.1|))
    ∧ (∀ r : ℚ × ℕ,
        compute_max_error (fun _ => .error "domain") [(0, 1), (1, 2)] ≠ .ok r) :=
  ⟨compute_max_error_spec.1 (fun t => .ok t) (fun t => t) (fun _ => rfl) [(0, 1), (1, 2)],
   fun r => compute_max_error_spec.2.1 (fun _ => .error "domain") [(0, 1), (1, 2)]
     (0, 1) "domain" (by norm_num) rfl r⟩

/-- C8: the scalar function adapters are pure: two calls with identical
bindings return identical results (no hidden state drift between calls),
and each call is exactly one fresh evaluation of the stored compiled
expression against the whitelist environment plus the call's bindings —
nothing else feeds into the result. -/
theorem adapters_pure :
    (∀ (I : Interp) (c : Expr) (y1 t1 y2 t2 : ℚ), y1 = y2 → t1 = t2 →
        build_f_function I c y1 t1 = build_f_function I c y2 t2)
    ∧ (∀ (I : Interp) (c : Expr) (t1 t2 : ℚ), t1 = t2 →
        build_g_function I c t1 = build_g_function I c t2)
    ∧ (∀ (I : Interp) (c : Expr) (y t : ℚ),
        build_f_function I c y t
          = evalExpr I (make_safe_eval_env I) [("y", .num y), ("t", .num t)] c)
    ∧ (∀ (I : Interp) (c : Expr) (t : ℚ),
        build_g_function I c t = evalExpr I (make_safe_eval_env I) [("t", .num t)] c) := by
  refine ⟨?_, ?_, ?_, ?_⟩
  · intro I c y1 t1 y2 t2 hy ht
    rw [hy, ht]
  · intro I c t1 t2 ht
    rw [ht]
  · intro I c y t
    rfl
  · intro I c t
    rfl

/-- Closed instantiation of `adapters_pure` at the expression `1 or z` and
bindings `y = t = 1`. -/
theorem adapters_pure_witness :
    build_f_function interp0 oneOrZ 1 1 = build_f_function interp0 oneOrZ 1 1
    ∧ build_g_function interp0 oneOrZ 1 = build_g_function interp0 oneOrZ 1 :=
  ⟨adapters_pure.1 interp0 oneOrZ 1 1 1 1 rfl rfl,
   adapters_pure.2.1 interp0 oneOrZ 1 1 rfl⟩

/-- C9: under `dt > 0` every trajectory the integrator returns has
strictly increasing `t`-values, and under `t_end > t0` every exact curve
the sampler returns has strictly increasing, evenly spaced `t`-values
(consecutive differences all equal to `(t_end - t0)/(num_points - 1)`
after clamping). -/
theorem trajectory_and_curve_monotone :
    (∀ (f : ℚ → ℚ → Except String ℚ) (t0 y0 t_end dt : ℚ) (L : List (ℚ × ℚ)),
        0 < dt → euler_method f t0 y0 t_end dt = some L →
        List.Chain' (· < ·) (L.map Prod.fst))
    ∧ (∀ (g : ℚ → Except String ℚ) (t0 t_end : ℚ) (n : ℤ) (L : List (ℚ × ℚ)),
        t0 < t_end → smooth_exact_curve g t0 t_end n = .ok L →
        List.Chain' (· < ·) (L.map Prod.fst)
        ∧ ∀ i : ℕ, i + 1 < L.length →
            (L.map Prod.fst).getD (i + 1) 0 - (L.map Prod.fst).getD i 0
              = (t_end - t0) / ((((if n < 2 then 2 else n) : ℤ) : ℚ) - 1)) := by
  constructor
  · intro f t0 y0 t_end dt L hdt h
    exact eulerAux_chain f t_end dt hdt (eulerFuel t0 t_end dt) t0 y0 L h
  · intro g t0 t_end n L ht hok
    have hn2 : (2 : ℤ) ≤ (if n < 2 then 2 else n) := by
      split
      · omega
      · omega
    set np : ℤ := if n < 2 then 2 else n with hnp
    set step : ℚ := (t_end - t0) / ((np : ℚ) - 1) with hstep
    have hm2 : 2 ≤ np.toNat := by omega
    have hnpq : (2 : ℚ) ≤ (np : ℚ) := by exact_mod_cast hn2
    have hstep_pos : 0 < step := by
      rw [hstep]
      apply div_pos (by linarith)
      linarith
    have hfst := sampleLoop_fst g t0 step np.toNat 0 L hok
    simp only [Nat.zero_add] at hfst
    have hlen : L.length = np.toNat := by
      have := congrArg List.length hfst
      simpa using this
    constructor
    · rw [hfst]
      rw [List.chain'_map]
      have hsplit : np.toNat = (np.toNat - 1) + 1 := by omega
      rw [hsplit, List.chain'_range_succ]
      intro m hm
      push_cast
      nlinarith [hstep_pos]
    · intro i hi
      rw [hlen] at hi
      rw [hfst]
      have hget : ∀ j : ℕ, j < np.toNat →
          ((List.range np.toNat).map (fun j : ℕ => t0 + (j : ℚ) * step)).getD j 0
            = t0 + (j : ℚ) * step := by
        intro j hj
        rw [List.getD_eq_getElem?_getD, List.getElem?_map, List.getElem?_range hj]
        simp
      rw [hget (i + 1) (by omega), hget i (by omega), hstep]
      push_cast
      ring

/-- Closed instantiation of `trajectory_and_curve_monotone`: a concrete
two-point trajectory and the concrete 5-point curve over `[2, 10]`. -/
theorem trajectory_and_curve_monotone_witness :
    List.Chain' (· < ·) (([((0 : ℚ), (1 : ℚ)), (1, 2)]).map Prod.fst)
    ∧ (List.Chain' (· < ·)
        (([((2 : ℚ), (2 : ℚ)), (4, 4), (6, 6), (8, 8), (10, 10)]).map Prod.fst)
       ∧ ∀ i : ℕ, i + 1 < ([((2 : ℚ), (2 : ℚ)), (4, 4), (6, 6), (8, 8), (10, 10)]).length →
           (([((2 : ℚ), (2 : ℚ)), (4, 4), (6, 6), (8, 8), (10, 10)]).map Prod.fst).getD (i + 1) 0
             - (([((2 : ℚ), (2 : ℚ)), (4, 4), (6, 6), (8, 8), (10, 10)]).map Prod.fst).getD i 0
             = (10 - 2) / ((((if (5 : ℤ) < 2 then 2 else 5) : ℤ) : ℚ) - 1)) := by
  have h1 : euler_method (fun y _ => .ok y) 0 1 1 1 = some [(0, 1), (1, 2)] := by
    have hfuel : eulerFuel 0 1 (1 : ℚ) = 2 := by
      unfold eulerFuel
      norm_num
    rw [euler_method, hfuel]
    norm_num [eulerAux]
  have h2 : smooth_exact_curve (fun t => .ok t) 2 10 5
      = .ok [(2, 2), (4, 4), (6, 6), (8, 8), (10, 10)] := by
    norm_num [smooth_exact_curve, sampleLoop]
  exact ⟨trajectory_and_curve_monotone.1 (fun y _ => .ok y) 0 1 1 1 [(0, 1), (1, 2)]
          (by norm_num) h1,
         trajectory_and_curve_monotone.2 (fun t => .ok t) 2 10 5
          [(2, 2), (4, 4), (6, 6), (8, 8), (10, 10)] (by norm_num) h2⟩

/-- C3 counterexample: under the source's actual binary64 arithmetic
(`t += 0.1` with rounding to nearest, ties to even — `addFP56`), the Euler
loop for `t0 = 0`, `t_end = 5`, `delta_t = 0.1` appends 51 steps, not 50:
after 50 additions `t` is `4.999999999999998 < 5`, so the loop runs once
more.  The trajectory therefore has 52 points, not 51, and its last
`t`-value is `5.099999999999998...`, which differs from `5.0` by almost a
full step — far beyond the claimed `1e-9` tolerance.  (The scaled integer
`367493729593432320` is `5.099999999999998 * 2 ^ 56`, matching CPython's
result bit for bit.) -/
theorem euler_float_step_count_counterexample :
    eulerTValuesFP.length = 52
    ∧ eulerTValuesFP.getLast? = some 367493729593432320
    ∧ ¬ (eulerTValuesFP.length = 51)
    ∧ |(367493729593432320 : ℚ) / 2 ^ 56 - 5| > 1 / 1000000000 := by
  refine ⟨?_, ?_, ?_, ?_⟩
  · set_option maxRecDepth 40000 in decide
  · set_option maxRecDepth 40000 in decide
  · set_option maxRecDepth 40000 in decide
  · rw [abs_of_pos (by norm_num)]
    norm_num

/-- C3 (amended): under exact rational arithmetic the claim's numbers are
right — for `t0 = 0`, `t_end = 5`, `dt = 1/10` and any never-failing `f`
the trajectory has exactly 51 points (1 initial + 50 steps) and its last
`t`-value is exactly 5 — but under the source's binary64 arithmetic the
trajectory has 52 points and its last `t`-value is
`367493729593432320 / 2 ^ 56 = 5.099999999999998...`, strictly between
`5.09` and `5.1`. -/
theorem euler_step_count_exact_vs_float :
    (∀ (f : ℚ → ℚ → Except String ℚ) (y0 : ℚ), (∀ y t, ∃ s, f y t = .ok s) →
      ∃ L, euler_method f 0 y0 5 (1/10) = some L
        ∧ L.length = 51
        ∧ (L.map Prod.fst).getLast? = some 5)
    ∧ eulerTValuesFP.length = 52
    ∧ eulerTValuesFP.getLast? = some 367493729593432320
    ∧ 5 + 9/100 < (367493729593432320 : ℚ) / 2 ^ 56
    ∧ (367493729593432320 : ℚ) / 2 ^ 56 < 5 + 1/10 := by
  refine ⟨?_, ?_, ?_, by norm_num, by norm_num⟩
  · intro f y0 hf
    obtain ⟨L, hL, hlen, hlast⟩ := euler_method_total_run f 0 y0 5 (1/10) (by norm_num) hf
    have hc : ⌈((5 : ℚ) - 0) / (1/10)⌉ = 50 := by norm_num
    have h50 : ((50 : ℤ)).toNat = 50 := rfl
    rw [hc, h50] at hlen hlast
    refine ⟨L, hL, by omega, ?_⟩
    rw [hlast]
    norm_num
  · set_option maxRecDepth 40000 in decide
  · set_option maxRecDepth 40000 in decide

/-- Closed instantiation of the exact-arithmetic part of
`euler_step_count_exact_vs_float` at the never-failing derivative
`f(y, t) = 0`. -/
theorem euler_step_count_exact_vs_float_witness :
    ∃ L, euler_method (fun _ _ => .ok 0) 0 1 5 (1/10) = some L
      ∧ L.length = 51
      ∧ (L.map Prod.fst).getLast? = some 5 :=
  euler_step_count_exact_vs_float.1 (fun _ _ => .ok 0) 1 (fun _ _ => ⟨0, rfl⟩)
